import Mathlib

/-!
# Lab2_CG rasterisation kernels: a verification development

Shallow embedding of the rasterisation kernels of `MathOGL.cpp`
(`drawLineBasic`, `drawLineBres`, `drawLineDDA`, `midPointCircleDraw`,
`BresenhamCircle`, `BresenhamCirclePoints`, `compareVecByElems`) and of the
scene assembly of `main.cpp` (`reorder_points_adjacent`, `drawVectors`,
`drawVectorsBresenh`, `drawMidPointCircle`, `renderVectors`), of
`MathOGL::scalarDivision` and of the constructors of `CartesianMesh`, and
theorems about them.

Embedding conventions.

* `glm::vec3` is the structure `Vec3 α` over a scalar type `α`.  The kernels
  that are run on integer inputs only ever store integers in it, so they are
  embedded over `Int`; `drawLineBasic`, which copies the real-valued `y1`
  into its first point, is embedded over `ℚ` (every finite `double` is a
  rational).
* The `int` and `double` variables of the source are mathematical integers
  and rationals: the embedding is exact as long as no `int` overflows and no
  floating-point operation rounds, which holds for integer inputs of moderate
  size.
* A `while`/`for` loop becomes a recursive function on the loop state, with
  the loop guard as its first test, returning the points pushed from that
  state on (in push order).  The loops are proved terminating (the functions
  are total), except the loop of `drawLineDDA`, which need not terminate and
  is run on fuel.
* A read of a vector at an index is `l[i]?`; `none` as a result stands for a
  read out of range.
-/

namespace Lab2CG

/-- The type `glm::vec3`, over a scalar type. -/
structure Vec3 (α : Type) where
  x : α
  y : α
  z : α
deriving DecidableEq, Repr

/-! ## `MathOGL::drawLineBres` (MathOGL.cpp, lines 213-239) -/

/-- The `for` loop of `drawLineBres`, from the state `(x, y, pk)` on:
`for (int x = x1, y = y1; x <= x2; x++) { push (x, y, 0); dx = x2 - x;
dy = y2 - y; if (pk >= 0) { pk = pk + 2*dy - 2*dx; y++; } else
{ pk = pk + 2*dy; } }`. -/
def drawLineBresLoop (x2 y2 : Int) (x y pk : Int) : List (Vec3 Int) :=
  if x ≤ x2 then
    let dx := x2 - x
    let dy := y2 - y
    if pk ≥ 0 then
      ⟨x, y, 0⟩ :: drawLineBresLoop x2 y2 (x + 1) (y + 1) (pk + 2 * dy - 2 * dx)
    else
      ⟨x, y, 0⟩ :: drawLineBresLoop x2 y2 (x + 1) y (pk + 2 * dy)
  else []
termination_by (x2 + 1 - x).toNat
decreasing_by all_goals omega

/-- The function `MathOGL::drawLineBres`: `dx = x2 - x1; dy = y2 - y1;
pk = 2*dy - dx;` followed by the loop. -/
def drawLineBres (x1 y1 x2 y2 : Int) : List (Vec3 Int) :=
  let dx := x2 - x1
  let dy := y2 - y1
  let pk := 2 * dy - dx
  drawLineBresLoop x2 y2 x1 y1 pk

/-- The first-octant Bresenham line as the specification words it (section
4.2.3): `dx = x2 - x1` and `dy = y2 - y1` are fixed once; for `x` from `x1` to
`x2` inclusive emit `(x, y)`; if `p ≥ 0` then `y ← y + 1` and
`p ← p + 2·(dy − dx)`, else `p ← p + 2·dy`. -/
def specBresenhamLineLoop (x2 dx dy : Int) (x y p : Int) : List (Vec3 Int) :=
  if x ≤ x2 then
    if p ≥ 0 then
      ⟨x, y, 0⟩ :: specBresenhamLineLoop x2 dx dy (x + 1) (y + 1) (p + 2 * (dy - dx))
    else
      ⟨x, y, 0⟩ :: specBresenhamLineLoop x2 dx dy (x + 1) y (p + 2 * dy)
  else []
termination_by (x2 + 1 - x).toNat
decreasing_by all_goals omega

/-- The reference first-octant Bresenham line of the specification, with
decision variable `p₀ = 2·dy − dx`. -/
def specBresenhamLine (x1 y1 x2 y2 : Int) : List (Vec3 Int) :=
  let dx := x2 - x1
  let dy := y2 - y1
  specBresenhamLineLoop x2 dx dy x1 y1 (2 * dy - dx)

/-! ## `MathOGL::compareVecByElems`, `std::sort`, `std::unique` -/

/-- The comparator `MathOGL::compareVecByElems` (MathOGL.cpp, lines 428-437). -/
def compareVecByElems {α : Type} [LinearOrder α] (a b : Vec3 α) : Bool :=
  if a.x ≠ b.x then decide (a.x < b.x)
  else if a.y ≠ b.y then decide (a.y < b.y)
  else decide (a.z < b.z)

/-- The strict lexicographic order on points: by `x`, then `y`, then `z`. -/
def lexLT {α : Type} [LinearOrder α] (a b : Vec3 α) : Prop :=
  a.x < b.x ∨ (a.x = b.x ∧ (a.y < b.y ∨ (a.y = b.y ∧ a.z < b.z)))

/-- The call `std::sort(first, last, comp)`: the elements rearranged so that
no element is followed by one that `comp` puts before it.  It is embedded as
an insertion sort for the relation "not `comp b a`"; with a comparator under
which equivalent elements are equal (as `compareVecByElems` is) every sorting
algorithm returns this same sequence. -/
def stdSort {α : Type} (comp : α → α → Bool) (l : List α) : List α :=
  l.insertionSort (fun a b => comp b a = false)

/-- The idiom `points.erase(std::unique(points.begin(), points.end()),
points.end())`: of every run of consecutive equal elements one is kept. -/
def stdUnique {α : Type} [DecidableEq α] : List α → List α
  | [] => []
  | [a] => [a]
  | a :: b :: l => if a = b then stdUnique (b :: l) else a :: stdUnique (b :: l)

/-! ## `MathOGL::BresenhamCircle` (MathOGL.cpp, lines 364-415) -/

/-- The eight points pushed by `MathOGL::BresenhamCirclePoints`, in push
order. -/
def BresenhamCirclePoints (x_center y_center x y : Int) : List (Vec3 Int) :=
  [⟨x_center + x, y_center + y, 0⟩,
   ⟨x_center - x, y_center + y, 0⟩,
   ⟨x_center + x, y_center - y, 0⟩,
   ⟨x_center - x, y_center - y, 0⟩,
   ⟨x_center + y, y_center + x, 0⟩,
   ⟨x_center - y, y_center + x, 0⟩,
   ⟨x_center + y, y_center - x, 0⟩,
   ⟨x_center - y, y_center - x, 0⟩]

/-- The `while` loop of `BresenhamCircle`, from the state `(x, y, d)` on:
`while (y >= x) { BresenhamCirclePoints(..., x, y, points); x++;
if (d > 0) { y--; d = d + 4*(x - y) + 10; } else d = d + 4*x + 6; }`.
The updates of `d` read the already incremented `x` (and decremented `y`). -/
def BresenhamCircleLoop (x_center y_center : Int) (x y d : Int) : List (Vec3 Int) :=
  if y ≥ x then
    BresenhamCirclePoints x_center y_center x y ++
      (if d > 0 then
        BresenhamCircleLoop x_center y_center (x + 1) (y - 1)
          (d + 4 * ((x + 1) - (y - 1)) + 10)
      else
        BresenhamCircleLoop x_center y_center (x + 1) y (d + 4 * (x + 1) + 6))
  else []
termination_by (y + 1 - x).toNat
decreasing_by all_goals omega

/-- The function `MathOGL::BresenhamCircle`: `x = 0; y = r; d = 3 - 2*y;`, the
loop, then `std::sort` with `compareVecByElems` and `std::unique`. -/
def BresenhamCircle (x_center y_center r : Int) : List (Vec3 Int) :=
  let y := r
  let d := 3 - 2 * y
  stdUnique (stdSort compareVecByElems (BresenhamCircleLoop x_center y_center 0 y d))

/-! ## `MathOGL::midPointCircleDraw` (MathOGL.cpp, lines 301-351) -/

/-- The conversion `int i = x1` of a `double` to `int`: truncation towards
zero. -/
def doubleToInt (q : ℚ) : Int :=
  if 0 ≤ q then ⌊q⌋ else ⌈q⌉

/-- The C function `roundf`: the nearest integer, halfway cases away from
zero. -/
def roundf (q : ℚ) : Int :=
  if 0 ≤ q then ⌊q + 1 / 2⌋ else ⌈q - 1 / 2⌉

/-- The `while` loop of `drawLineBasic`, from the state `(i, yi)` on:
`while (i < x2) { i = i + 1; xi = i; yi = roundf(yi + m); push (xi, yi, 0); }`. -/
def drawLineBasicLoop (x2 m : ℚ) (i : Int) (yi : ℚ) : List (Vec3 ℚ) :=
  if (i : ℚ) < x2 then
    ⟨((i + 1 : Int) : ℚ), (roundf (yi + m) : ℚ), 0⟩ ::
      drawLineBasicLoop x2 m (i + 1) (roundf (yi + m) : ℚ)
  else []
termination_by (⌈x2⌉ - i).toNat
decreasing_by
  have h : i < ⌈x2⌉ := Int.lt_ceil.mpr (by assumption)
  omega

/-- The function `MathOGL::drawLineBasic`: `dx = abs(x2 - x1);
dy = abs(y2 - y1); m = dy / dx; i = x1; yi = y1; push (i, yi, 0);` followed by
the loop.  For `x2 = x1` the source divides by zero; the embedding is meant
for `x2 ≠ x1`. -/
def drawLineBasic (x1 y1 x2 y2 : ℚ) : List (Vec3 ℚ) :=
  let dx := |x2 - x1|
  let dy := |y2 - y1|
  let m := dy / dx
  let i := doubleToInt x1
  ⟨(i : ℚ), y1, 0⟩ :: drawLineBasicLoop x2 m i y1

/-- How a run of a loop that need not terminate ends: the guard became false,
a division of zero by zero was reached (the quotient is NaN and its conversion
to `int` is undefined), or the fuel given to the run was used up. -/
inductive LoopStatus where
  | finished
  | zeroDivision
  | outOfFuel
deriving DecidableEq, Repr

/-- The floating-point quotient `a / b` of the source; `none` when the divisor
is zero. -/
def floatDiv (a b : ℚ) : Option ℚ :=
  if b = 0 then none else some (a / b)

/-- The `while` loop of `drawLineDDA`, from the state `(xi, yi)` on, run for
at most `fuel` iterations: `while (xi < x2 || yi < x2) { dy = abs(y2 - yi);
dx = abs(x2 - xi); if (dx > dy) { step = dx; dx = dx / step; xi = xi + dx; }
else { step = dy; dy = dy / step; yi = yi + dy; } push (xi, yi, 0); }`.
The second test of the guard compares `yi` with `x2`, as in the source.  The
result is the points pushed and the way the run ended. -/
def drawLineDDALoop (x2 y2 : ℚ) : Nat → Int → Int → List (Vec3 Int) × LoopStatus
  | fuel, xi, yi =>
    if (xi : ℚ) < x2 ∨ (yi : ℚ) < x2 then
      match fuel with
      | 0 => ([], LoopStatus.outOfFuel)
      | fuel + 1 =>
        let dy : ℚ := |y2 - yi|
        let dx : ℚ := |x2 - xi|
        if dx > dy then
          match floatDiv dx dx with
          | none => ([], LoopStatus.zeroDivision)
          | some q =>
            let r := drawLineDDALoop x2 y2 fuel (doubleToInt (xi + q)) yi
            (⟨doubleToInt (xi + q), yi, 0⟩ :: r.1, r.2)
        else
          match floatDiv dy dy with
          | none => ([], LoopStatus.zeroDivision)
          | some q =>
            let r := drawLineDDALoop x2 y2 fuel xi (doubleToInt (yi + q))
            (⟨xi, doubleToInt (yi + q), 0⟩ :: r.1, r.2)
    else ([], LoopStatus.finished)

/-- The function `MathOGL::drawLineDDA`, run for at most `fuel` iterations of
its loop: `xi = x1; yi = y1; push (xi, yi, 0);` followed by the loop. -/
def drawLineDDA (fuel : Nat) (x1 y1 x2 y2 : ℚ) : List (Vec3 Int) × LoopStatus :=
  let xi := doubleToInt x1
  let yi := doubleToInt y1
  let r := drawLineDDALoop x2 y2 fuel xi yi
  (⟨xi, yi, 0⟩ :: r.1, r.2)

/-! ## `reorder_points_adjacent` (main.cpp, lines 80-103) -/

/-- The square of `glm::distance(a, b)`.  The source compares the distances
themselves, as `float`s; on integer points of moderate size two distances
compare as their squares do. -/
def distanceSq (a b : Vec3 Int) : Int :=
  (a.x - b.x) ^ 2 + (a.y - b.y) ^ 2 + (a.z - b.z) ^ 2

/-- The test `distancia < distancia_minima`, where `distancia_minima = none`
stands for the initial value `FLT_MAX`, above every distance. -/
def belowMinimum (distancia : Int) : Option Int → Bool
  | none => true
  | some m => decide (distancia < m)

/-- The inner loop `for (glm::vec3 punto : puntos)` of
`reorder_points_adjacent`, on the state `(distancia_minima, mejor_punto)`:
a `punto` found in `resultado` is skipped; otherwise, if its distance to
`ultimo_punto` is below `distancia_minima`, it becomes `mejor_punto`. -/
def nearestLoop (resultado : List (Vec3 Int)) (ultimo_punto : Vec3 Int) :
    List (Vec3 Int) → Option Int × Vec3 Int → Option Int × Vec3 Int
  | [], st => st
  | punto :: rest, (distancia_minima, mejor_punto) =>
    if punto ∈ resultado then
      nearestLoop resultado ultimo_punto rest (distancia_minima, mejor_punto)
    else
      let distancia := distanceSq ultimo_punto punto
      if belowMinimum distancia distancia_minima then
        nearestLoop resultado ultimo_punto rest (some distancia, punto)
      else
        nearestLoop resultado ultimo_punto rest (distancia_minima, mejor_punto)

/-- The loop `while (resultado.size() < puntos.size())` of
`reorder_points_adjacent`: `ultimo_punto = resultado.back()`, the inner loop,
`resultado.push_back(mejor_punto)`.  `mejor0` is the value of the
default-constructed `glm::vec3 mejor_punto`, which the source does not set. -/
def reorderLoop (mejor0 : Vec3 Int) (puntos resultado : List (Vec3 Int)) :
    List (Vec3 Int) :=
  if resultado.length < puntos.length then
    let ultimo_punto := resultado.getLastD mejor0
    let st := nearestLoop resultado ultimo_punto puntos (none, mejor0)
    reorderLoop mejor0 puntos (resultado ++ [st.2])
  else resultado
termination_by puntos.length - resultado.length
decreasing_by
  simp only [List.length_append, List.length_singleton]
  omega

/-- The function `reorder_points_adjacent`: `resultado` starts as
`[puntos[0]]`, then the loop.  On an empty vector the source reads
`puntos[0]` out of range; the embedding returns the empty list there. -/
def reorder_points_adjacent (mejor0 : Vec3 Int) (puntos : List (Vec3 Int)) :
    List (Vec3 Int) :=
  match puntos with
  | [] => []
  | p0 :: _ => reorderLoop mejor0 puntos [p0]

/-- The data of a `VectorMesh` built by its four-argument constructor: the
coordinates `x, y, z` of the tip and the `origin`. -/
structure VectorMesh where
  x : Int
  y : Int
  z : Int
  origin : Vec3 Int
deriving DecidableEq, Repr

/-- The globals `nVectors` and `vectorMeshList` of main.cpp. -/
structure Scene where
  nVectors : Nat
  vectorMeshList : List VectorMesh
deriving DecidableEq, Repr

/-- The loop `for (unsigned int i = 1; i < numberOfPoints; i++)` of
`drawVectors` (and, with the same body, of `drawVectorsBresenh` and of the
last quadrant of `drawMidPointCircle`), from index `i` on: a `VectorMesh` with
tip `points[i]` and origin `points[i-1]` is pushed and `nVectors`
incremented.  `none` stands for a read of `points` out of range. -/
def drawVectorsLoop (points : List (Vec3 Int)) (numberOfPoints : Nat) (i : Nat)
    (s : Scene) : Option Scene :=
  if i < numberOfPoints then
    match points[i]?, points[i - 1]? with
    | some p, some o =>
      drawVectorsLoop points numberOfPoints (i + 1)
        ⟨s.nVectors + 1, s.vectorMeshList ++ [⟨p.x, p.y, p.z, o⟩]⟩
    | _, _ => none
  else some s
termination_by numberOfPoints - i
decreasing_by omega

/-- The function `drawVectors`. -/
def drawVectors (points : List (Vec3 Int)) (s : Scene) : Option Scene :=
  let numberOfPoints := points.length
  drawVectorsLoop points numberOfPoints 1 s

/-- The function `drawVectorsBresenh`: the loop of `drawVectors`, then a
`VectorMesh` with tip `points[0]` and origin `points[nVectors]`, read with the
value `nVectors` has after the loop. -/
def drawVectorsBresenh (points : List (Vec3 Int)) (s : Scene) : Option Scene :=
  let numberOfPoints := points.length
  match drawVectorsLoop points numberOfPoints 1 s with
  | none => none
  | some s1 =>
    match points[0]?, points[s1.nVectors]? with
    | some p, some o =>
      some ⟨s1.nVectors + 1, s1.vectorMeshList ++ [⟨p.x, p.y, p.z, o⟩]⟩
    | _, _ => none

/-- The segments that join each pair of consecutive points of a sequence,
the earlier point as origin and the later one as tip. -/
def consecutiveSegments : List (Vec3 Int) → List VectorMesh
  | [] => []
  | [_] => []
  | a :: b :: l => ⟨b.x, b.y, b.z, a⟩ :: consecutiveSegments (b :: l)

theorem drawLineBres_0_0_7_2 :
    drawLineBres 0 0 7 2 =
      [⟨0, 0, 0⟩, ⟨1, 0, 0⟩, ⟨2, 1, 0⟩, ⟨3, 1, 0⟩, ⟨4, 1, 0⟩, ⟨5, 1, 0⟩,
        ⟨6, 1, 0⟩, ⟨7, 2, 0⟩] := by
  simp [drawLineBres, drawLineBresLoop]

theorem specBresenhamLine_0_0_7_2 :
    specBresenhamLine 0 0 7 2 =
      [⟨0, 0, 0⟩, ⟨1, 0, 0⟩, ⟨2, 1, 0⟩, ⟨3, 1, 0⟩, ⟨4, 1, 0⟩, ⟨5, 1, 0⟩,
        ⟨6, 2, 0⟩, ⟨7, 2, 0⟩] := by
  simp [specBresenhamLine, specBresenhamLineLoop]

/-- C3 (the code departs from the reference): on `(0,0) → (7,2)`, which
satisfies `x2 ≥ x1` and `0 ≤ y2 - y1 ≤ x2 - x1`, `drawLineBres` and the
reference first-octant Bresenham line of the specification differ: at `x = 6`
the code emits `y = 1`, the reference `y = 2`. -/
theorem drawLineBres_differs_from_reference :
    (0 : Int) ≤ 7 ∧ (0 : Int) ≤ 2 - 0 ∧ (2 : Int) - 0 ≤ 7 - 0 ∧
      drawLineBres 0 0 7 2 ≠ specBresenhamLine 0 0 7 2 ∧
      (drawLineBres 0 0 7 2)[6]? = some ⟨6, 1, 0⟩ ∧
      (specBresenhamLine 0 0 7 2)[6]? = some ⟨6, 2, 0⟩ := by
  rw [drawLineBres_0_0_7_2, specBresenhamLine_0_0_7_2]
  decide

/-! ## Sorting and deduplication -/

theorem compareVecByElems_iff (a b : Vec3 Int) :
    compareVecByElems a b = true ↔ lexLT a b := by
  unfold compareVecByElems lexLT
  by_cases hx : a.x = b.x
  · by_cases hy : a.y = b.y
    · simp [hx, hy]
    · simp [hx, hy]
  · simp [hx]

theorem compareVecByElems_false_iff (a b : Vec3 Int) :
    compareVecByElems a b = false ↔ ¬ lexLT a b := by
  rw [← compareVecByElems_iff]
  simp

theorem lexLT_irrefl (a : Vec3 Int) : ¬ lexLT a a := by
  simp [lexLT]

theorem lexLT_asymm {a b : Vec3 Int} (h : lexLT a b) : ¬ lexLT b a := by
  unfold lexLT at *
  omega

theorem lexLT_of_le_of_le_of_ne {a b c : Vec3 Int} (hab : ¬ lexLT b a)
    (hbc : ¬ lexLT c b) (hne : a ≠ b) : lexLT a c := by
  obtain ⟨ax, ay, az⟩ := a
  obtain ⟨bx, b_y, bz⟩ := b
  obtain ⟨c_x, c_y, cz⟩ := c
  simp only [lexLT, ne_eq, Vec3.mk.injEq] at *
  omega

theorem vecLE_total (a b : Vec3 Int) :
    compareVecByElems b a = false ∨ compareVecByElems a b = false := by
  rw [compareVecByElems_false_iff, compareVecByElems_false_iff]
  unfold lexLT
  omega

theorem vecLE_trans (a b c : Vec3 Int) (hab : compareVecByElems b a = false)
    (hbc : compareVecByElems c b = false) : compareVecByElems c a = false := by
  rw [compareVecByElems_false_iff] at *
  unfold lexLT at *
  omega

theorem stdSort_sorted (l : List (Vec3 Int)) :
    List.Sorted (fun a b : Vec3 Int => compareVecByElems b a = false)
      (stdSort compareVecByElems l) := by
  haveI : IsTotal (Vec3 Int) (fun a b : Vec3 Int => compareVecByElems b a = false) :=
    ⟨vecLE_total⟩
  haveI : IsTrans (Vec3 Int) (fun a b : Vec3 Int => compareVecByElems b a = false) :=
    ⟨vecLE_trans⟩
  exact List.sorted_insertionSort _ l

theorem mem_stdSort {α : Type} (comp : α → α → Bool) (l : List α) (a : α) :
    a ∈ stdSort comp l ↔ a ∈ l :=
  (List.perm_insertionSort _ l).mem_iff

theorem mem_stdUnique {α : Type} [DecidableEq α] (a : α) :
    ∀ l : List α, a ∈ stdUnique l ↔ a ∈ l := by
  intro l
  induction l with
  | nil => simp [stdUnique]
  | cons b t ih =>
    cases t with
    | nil => simp [stdUnique]
    | cons c t =>
      by_cases hbc : b = c
      · simp only [stdUnique, if_pos hbc, ih]
        subst hbc
        simp
      · simp only [stdUnique, if_neg hbc, List.mem_cons, ih]

theorem stdUnique_pairwise :
    ∀ l : List (Vec3 Int),
      List.Sorted (fun a b : Vec3 Int => compareVecByElems b a = false) l →
      List.Pairwise lexLT (stdUnique l) := by
  intro l
  induction l with
  | nil => intro _; simp [stdUnique]
  | cons b t ih =>
    intro hs
    cases t with
    | nil => simp [stdUnique]
    | cons c t =>
      have hs' := List.sorted_cons.mp hs
      have ih' := ih hs'.2
      by_cases hbc : b = c
      · simpa only [stdUnique, if_pos hbc] using ih'
      · simp only [stdUnique, if_neg hbc]
        refine List.Pairwise.cons ?_ ih'
        intro e he
        have he' : e ∈ c :: t := (mem_stdUnique e _).mp he
        have hbc' : ¬ lexLT c b :=
          (compareVecByElems_false_iff c b).mp (hs'.1 c (List.mem_cons_self _ _))
        have hce : ¬ lexLT e c := by
          rcases List.mem_cons.mp he' with h | h
          · rw [h]; exact lexLT_irrefl c
          · exact (compareVecByElems_false_iff e c).mp
              ((List.sorted_cons.mp hs'.2).1 e h)
        exact lexLT_of_le_of_le_of_ne hbc' hce hbc

theorem stdUnique_eq_self :
    ∀ l : List (Vec3 Int), List.Pairwise lexLT l → stdUnique l = l := by
  intro l
  induction l with
  | nil => intro _; rfl
  | cons b t ih =>
    intro hp
    cases t with
    | nil => rfl
    | cons c t =>
      have hp' := List.pairwise_cons.mp hp
      have hbc : b ≠ c := by
        intro h
        have := hp'.1 c (List.mem_cons_self _ _)
        rw [h] at this
        exact lexLT_irrefl c this
      simp only [stdUnique, if_neg hbc, ih hp'.2]

theorem stdSort_eq_self (l : List (Vec3 Int)) (hp : List.Pairwise lexLT l) :
    stdSort compareVecByElems l = l := by
  apply List.Sorted.insertionSort_eq
  exact hp.imp (fun {a b} h => (compareVecByElems_false_iff b a).mpr (lexLT_asymm h))

/-! ## Theorems on `BresenhamCircle` -/

theorem mem_BresenhamCircle (cx cy r : Int) (p : Vec3 Int) :
    p ∈ BresenhamCircle cx cy r ↔ p ∈ BresenhamCircleLoop cx cy 0 r (3 - 2 * r) := by
  unfold BresenhamCircle
  simp only [mem_stdUnique, mem_stdSort]

theorem BresenhamCircle_pairwise (cx cy r : Int) :
    List.Pairwise lexLT (BresenhamCircle cx cy r) :=
  stdUnique_pairwise _ (stdSort_sorted _)

/-- C6: the sequence returned by `BresenhamCircle` is strictly increasing in
the lexicographic order (x, then y, then z); hence it has no two equal points
and sorting and deduplicating it again returns it unchanged. -/
theorem BresenhamCircle_strictly_sorted (cx cy r : Int) (_hr : 0 ≤ r) :
    List.Pairwise lexLT (BresenhamCircle cx cy r) ∧
      (BresenhamCircle cx cy r).Nodup ∧
      stdUnique (stdSort compareVecByElems (BresenhamCircle cx cy r)) =
        BresenhamCircle cx cy r := by
  have hp := BresenhamCircle_pairwise cx cy r
  refine ⟨hp, ?_, ?_⟩
  · exact hp.imp (fun {a b} h hab => by rw [hab] at h; exact lexLT_irrefl b h)
  · rw [stdSort_eq_self _ hp, stdUnique_eq_self _ hp]

theorem BresenhamCircle_strictly_sorted_witness :
    (0 : Int) ≤ 3 ∧
      (List.Pairwise lexLT (BresenhamCircle 0 0 3) ∧
        (BresenhamCircle 0 0 3).Nodup ∧
        stdUnique (stdSort compareVecByElems (BresenhamCircle 0 0 3)) =
          BresenhamCircle 0 0 3) :=
  ⟨by decide, BresenhamCircle_strictly_sorted 0 0 3 (by decide)⟩

theorem BresenhamCircleLoop_0_0_5 :
    BresenhamCircleLoop 0 0 0 5 (3 - 2 * 5) =
      BresenhamCirclePoints 0 0 0 5 ++ (BresenhamCirclePoints 0 0 1 5 ++
        (BresenhamCirclePoints 0 0 2 4 ++ BresenhamCirclePoints 0 0 3 3)) := by
  rw [BresenhamCircleLoop]
  simp [BresenhamCircleLoop]

/-- C4 (the code departs from the claim): with centre `(0,0)` and radius 5 the
output of `BresenhamCircle` contains `(3, 3, 0)`, for which
`|3² + 3² − 5²| = 7 > 5`; so not every output point `(cx + a, cy + b, 0)`
satisfies `|a² + b² − r²| ≤ r`. -/
theorem BresenhamCircle_radius_5_off_circle :
    (0 : Int) < 5 ∧ (⟨0 + 3, 0 + 3, 0⟩ : Vec3 Int) ∈ BresenhamCircle 0 0 5 ∧
      ¬ (∀ a b : Int, (⟨0 + a, 0 + b, 0⟩ : Vec3 Int) ∈ BresenhamCircle 0 0 5 →
        |a ^ 2 + b ^ 2 - 5 ^ 2| ≤ 5) := by
  have hmem : (⟨0 + 3, 0 + 3, 0⟩ : Vec3 Int) ∈ BresenhamCircle 0 0 5 := by
    rw [mem_BresenhamCircle, BresenhamCircleLoop_0_0_5]
    simp [BresenhamCirclePoints]
  refine ⟨by decide, hmem, fun h => ?_⟩
  have h7 := h 3 3 hmem
  norm_num [abs_le] at h7

theorem roundf_intCast (k : Int) : roundf (k : ℚ) = k := by
  unfold roundf
  split
  · rw [Int.floor_eq_iff]
    constructor <;> norm_num
  · rw [Int.ceil_eq_iff]
    constructor <;> norm_num

theorem drawLineBasicLoop_done (x2 m : ℚ) (i : Int) (yi : ℚ) (h : x2 ≤ (i : ℚ)) :
    drawLineBasicLoop x2 m i yi = [] := by
  rw [drawLineBasicLoop, if_neg (not_lt.mpr h)]

theorem drawLineBasicLoop_step (x2 m : ℚ) (i : Int) (yi : ℚ) (h : (i : ℚ) < x2) :
    drawLineBasicLoop x2 m i yi =
      ⟨((i + 1 : Int) : ℚ), (roundf (yi + m) : ℚ), 0⟩ ::
        drawLineBasicLoop x2 m (i + 1) (roundf (yi + m) : ℚ) := by
  rw [drawLineBasicLoop, if_pos h]

theorem doubleToInt_intCast (k : Int) : doubleToInt (k : ℚ) = k := by
  unfold doubleToInt
  split
  · exact Int.floor_intCast k
  · exact Int.ceil_intCast k

theorem drawLineBasic_0_0_4_neg4 :
    drawLineBasic 0 0 4 (-4) =
      [⟨0, 0, 0⟩, ⟨1, 1, 0⟩, ⟨2, 2, 0⟩, ⟨3, 3, 0⟩, ⟨4, 4, 0⟩] := by
  have hm : |(-4 : ℚ) - 0| / |(4 : ℚ) - 0| = ((1 : Int) : ℚ) := by norm_num
  have h0 : doubleToInt 0 = 0 := by simp [doubleToInt]
  have hr : ∀ k : Int, roundf ((k : ℚ) + ((1 : Int) : ℚ)) = k + 1 := by
    intro k
    rw [← Int.cast_add, roundf_intCast]
  unfold drawLineBasic
  simp only [hm, h0]
  rw [show (0 : ℚ) = ((0 : Int) : ℚ) by norm_num]
  rw [drawLineBasicLoop_step _ _ _ _ (by norm_num), hr,
    drawLineBasicLoop_step _ _ _ _ (by norm_num), hr,
    drawLineBasicLoop_step _ _ _ _ (by norm_num), hr,
    drawLineBasicLoop_step _ _ _ _ (by norm_num), hr,
    drawLineBasicLoop_done _ _ _ _ (by norm_num)]
  norm_num

/-- C11 (the code departs from the claim): on `(0,0) → (4,-4)`, where
`x2 > x1` and the signed slope is `-1`, `drawLineBasic` returns
`[(0,0,0),(1,1,0),(2,2,0),(3,3,0),(4,4,0)]`: its second point has `y = 1`, not
`round(0 + (-1)) = -1`, and its `y`-values increase although `y2 < y1`. -/
theorem drawLineBasic_drops_slope_sign :
    (0 : ℚ) < 4 ∧ ((-4 : ℚ) - 0) / (4 - 0) = -1 ∧
      drawLineBasic 0 0 4 (-4) =
        [⟨0, 0, 0⟩, ⟨1, 1, 0⟩, ⟨2, 2, 0⟩, ⟨3, 3, 0⟩, ⟨4, 4, 0⟩] ∧
      (drawLineBasic 0 0 4 (-4))[1]? ≠
        some ⟨1, (roundf (0 + ((-4 : ℚ) - 0) / (4 - 0)) : ℚ), 0⟩ ∧
      ¬ List.Pairwise (fun p q : Vec3 ℚ => q.y ≤ p.y) (drawLineBasic 0 0 4 (-4)) := by
  have hr : roundf (0 + ((-4 : ℚ) - 0) / (4 - 0)) = -1 := by
    have h : (0 + ((-4 : ℚ) - 0) / (4 - 0)) = ((-1 : Int) : ℚ) := by norm_num
    rw [h, roundf_intCast]
  rw [drawLineBasic_0_0_4_neg4, hr]
  refine ⟨by norm_num, by norm_num, rfl, ?_, ?_⟩
  · simp
    norm_num
  · simp

theorem drawLineDDALoop_done (x2 y2 : ℚ) (fuel : Nat) (xi yi : Int)
    (h : ¬ ((xi : ℚ) < x2 ∨ (yi : ℚ) < x2)) :
    drawLineDDALoop x2 y2 fuel xi yi = ([], LoopStatus.finished) := by
  rw [drawLineDDALoop.eq_def]
  simp only [if_neg h]

theorem drawLineDDALoop_stepX (x2 y2 : Int) (fuel : Nat) (xi yi : Int)
    (hg : xi < x2 ∨ yi < x2) (h : |y2 - yi| < |x2 - xi|) :
    drawLineDDALoop x2 y2 (fuel + 1) xi yi =
      (⟨xi + 1, yi, 0⟩ :: (drawLineDDALoop x2 y2 fuel (xi + 1) yi).1,
        (drawLineDDALoop x2 y2 fuel (xi + 1) yi).2) := by
  have hg' : (xi : ℚ) < x2 ∨ (yi : ℚ) < x2 := by exact_mod_cast hg
  have h' : |(x2 : ℚ) - xi| > |(y2 : ℚ) - yi| := by exact_mod_cast h
  have hne : |(x2 : ℚ) - xi| ≠ 0 := ne_of_gt (lt_of_le_of_lt (abs_nonneg _) h')
  have hq : floatDiv |(x2 : ℚ) - xi| |(x2 : ℚ) - xi| = some 1 := by
    unfold floatDiv
    rw [if_neg hne, div_self hne]
  have hd : doubleToInt ((xi : ℚ) + 1) = xi + 1 := by
    have := doubleToInt_intCast (xi + 1)
    simpa using this
  rw [drawLineDDALoop, if_pos hg']
  simp only [if_pos h', hq, hd]

theorem drawLineDDALoop_stepY (x2 y2 : Int) (fuel : Nat) (xi yi : Int)
    (hg : xi < x2 ∨ yi < x2) (h : ¬ |y2 - yi| < |x2 - xi|) (hy : y2 ≠ yi) :
    drawLineDDALoop x2 y2 (fuel + 1) xi yi =
      (⟨xi, yi + 1, 0⟩ :: (drawLineDDALoop x2 y2 fuel xi (yi + 1)).1,
        (drawLineDDALoop x2 y2 fuel xi (yi + 1)).2) := by
  have hg' : (xi : ℚ) < x2 ∨ (yi : ℚ) < x2 := by exact_mod_cast hg
  have h' : ¬ |(x2 : ℚ) - xi| > |(y2 : ℚ) - yi| := by exact_mod_cast h
  have hne : |(y2 : ℚ) - yi| ≠ 0 := by
    rw [abs_ne_zero, sub_ne_zero]
    exact_mod_cast hy
  have hq : floatDiv |(y2 : ℚ) - yi| |(y2 : ℚ) - yi| = some 1 := by
    unfold floatDiv
    rw [if_neg hne, div_self hne]
  have hd : doubleToInt ((yi : ℚ) + 1) = yi + 1 := by
    have := doubleToInt_intCast (yi + 1)
    simpa using this
  rw [drawLineDDALoop, if_pos hg']
  simp only [if_neg h', hq, hd]

theorem drawLineDDALoop_zeroDivision (x2 y2 : Int) (fuel : Nat) (xi yi : Int)
    (hg : xi < x2 ∨ yi < x2) (h : ¬ |y2 - yi| < |x2 - xi|) (hy : y2 = yi) :
    drawLineDDALoop x2 y2 (fuel + 1) xi yi = ([], LoopStatus.zeroDivision) := by
  have hg' : (xi : ℚ) < x2 ∨ (yi : ℚ) < x2 := by exact_mod_cast hg
  have h' : ¬ |(x2 : ℚ) - xi| > |(y2 : ℚ) - yi| := by exact_mod_cast h
  have hq : floatDiv |(y2 : ℚ) - yi| |(y2 : ℚ) - yi| = none := by
    unfold floatDiv
    rw [hy, sub_self, abs_zero, if_pos rfl]
  rw [drawLineDDALoop, if_pos hg']
  simp only [if_neg h', hq]

theorem drawLineDDALoop_outOfFuel (x2 y2 : ℚ) (xi yi : Int)
    (h : (xi : ℚ) < x2 ∨ (yi : ℚ) < x2) :
    drawLineDDALoop x2 y2 0 xi yi = ([], LoopStatus.outOfFuel) := by
  rw [drawLineDDALoop.eq_def]
  simp only [if_pos h]


theorem drawLineDDA_0_0_2_2 (k : Nat) :
    drawLineDDA (4 + k) 0 0 2 2 =
      ([⟨0, 0, 0⟩, ⟨0, 1, 0⟩, ⟨1, 1, 0⟩, ⟨1, 2, 0⟩, ⟨2, 2, 0⟩], LoopStatus.finished) := by
  have h0 : doubleToInt 0 = 0 := by simp [doubleToInt]
  have e : 4 + k = k + 1 + 1 + 1 + 1 := by omega
  unfold drawLineDDA
  simp only [h0]
  rw [e, show (2 : ℚ) = ((2 : Int) : ℚ) by norm_num]
  rw [drawLineDDALoop_stepY 2 2 _ 0 0 (by decide) (by decide) (by decide)]
  rw [drawLineDDALoop_stepX 2 2 _ 0 (0 + 1) (by decide) (by decide)]
  rw [drawLineDDALoop_stepY 2 2 _ (0 + 1) (0 + 1) (by decide) (by decide) (by decide)]
  rw [drawLineDDALoop_stepX 2 2 _ (0 + 1) (0 + 1 + 1) (by decide) (by decide)]
  rw [drawLineDDALoop_done _ _ _ _ _ (by norm_num)]
  rfl

/-- C13 (the code departs from the claim): on `(0,0) → (2,2)`, where
`x2 > x1` and `|x2 - x1| ≥ |y2 - y1|`, `drawLineDDA` returns the five points
`[(0,0,0),(0,1,0),(1,1,0),(1,2,0),(2,2,0)]`, not `x2 - x1 + 1 = 3`; its first
two points have the same `x`. -/
theorem drawLineDDA_steps_one_axis_at_a_time :
    (0 : Int) < 2 ∧ |(2 : Int) - 0| ≥ |(2 : Int) - 0| ∧
      (∀ k : Nat, drawLineDDA (4 + k) 0 0 2 2 =
        ([⟨0, 0, 0⟩, ⟨0, 1, 0⟩, ⟨1, 1, 0⟩, ⟨1, 2, 0⟩, ⟨2, 2, 0⟩], LoopStatus.finished)) ∧
      (drawLineDDA 4 0 0 2 2).1.length ≠ 2 - 0 + 1 ∧
      ¬ List.Chain' (fun p q : Vec3 Int => q.x = p.x + 1) (drawLineDDA 4 0 0 2 2).1 := by
  have h := drawLineDDA_0_0_2_2 0
  rw [Nat.add_zero] at h
  rw [h]
  refine ⟨by decide, by decide, drawLineDDA_0_0_2_2, by decide, ?_⟩
  simp [List.Chain']

theorem drawLineDDA_0_0_1_0 (k : Nat) :
    drawLineDDA (2 + k) 0 0 1 0 =
      ([⟨0, 0, 0⟩, ⟨1, 0, 0⟩], LoopStatus.zeroDivision) := by
  have h0 : doubleToInt 0 = 0 := by simp [doubleToInt]
  have e : 2 + k = k + 1 + 1 := by omega
  unfold drawLineDDA
  simp only [h0]
  rw [e, show (1 : ℚ) = ((1 : Int) : ℚ) by norm_num,
    show (0 : ℚ) = ((0 : Int) : ℚ) by norm_num]
  rw [drawLineDDALoop_stepX 1 0 _ 0 0 (by decide) (by decide)]
  rw [drawLineDDALoop_zeroDivision 1 0 _ (0 + 1) 0 (by decide) (by decide) (by decide)]
  rfl

/-- C14 (the code departs from the claim): on `(0,0) → (1,0)`, which
satisfies `x2 ≥ x1` and `0 ≤ y2 - y1 ≤ x2 - x1`, `drawLineDDA` emits
`(0,0,0)` and `(1,0,0)`, and then does not stop at the endpoint: the guard
`yi < x2` still holds, both remaining deltas are 0 and the step divides 0 by
0.  However many iterations are allowed, the run never ends by its guard. -/
theorem drawLineDDA_runs_past_endpoint :
    (0 : ℚ) ≤ 1 ∧ (0 : ℚ) ≤ 0 - 0 ∧ (0 : ℚ) - 0 ≤ 1 - 0 ∧
      (∀ k : Nat, drawLineDDA (2 + k) 0 0 1 0 =
        ([⟨0, 0, 0⟩, ⟨1, 0, 0⟩], LoopStatus.zeroDivision)) ∧
      (∀ fuel : Nat, (drawLineDDA fuel 0 0 1 0).2 ≠ LoopStatus.finished) := by
  refine ⟨by norm_num, by norm_num, by norm_num, drawLineDDA_0_0_1_0, ?_⟩
  intro fuel
  have h0 : doubleToInt 0 = 0 := by simp [doubleToInt]
  rcases fuel with _ | _ | k
  · unfold drawLineDDA
    simp only [h0]
    rw [drawLineDDALoop_outOfFuel _ _ _ _ (by norm_num)]
    decide
  · unfold drawLineDDA
    simp only [h0]
    rw [show (1 : ℚ) = ((1 : Int) : ℚ) by norm_num,
      show (0 : ℚ) = ((0 : Int) : ℚ) by norm_num]
    rw [drawLineDDALoop_stepX 1 0 _ 0 0 (by decide) (by decide)]
    rw [drawLineDDALoop_outOfFuel _ _ _ _ (by norm_num)]
    decide
  · have e : k + 1 + 1 = 2 + k := by omega
    rw [e, drawLineDDA_0_0_1_0 k]
    decide

/-! ## `compareVecByElems` is the strict lexicographic order -/

theorem compareVecByElems_iff_lexLT {α : Type} [LinearOrder α] (a b : Vec3 α) :
    compareVecByElems a b = true ↔ lexLT a b := by
  unfold compareVecByElems lexLT
  by_cases hx : a.x = b.x
  · by_cases hy : a.y = b.y
    · simp [hx, hy]
    · simp [hx, hy]
  · simp [hx]

theorem lexLT_iff_toLex {α : Type} [LinearOrder α] (a b : Vec3 α) :
    lexLT a b ↔ toLex (a.x, toLex (a.y, a.z)) < toLex (b.x, toLex (b.y, b.z)) := by
  unfold lexLT
  rw [Prod.Lex.lt_iff]
  simp only [Prod.Lex.lt_iff]

theorem eq_of_toLex_eq {α : Type} [LinearOrder α] (a b : Vec3 α)
    (h : toLex (a.x, toLex (a.y, a.z)) = toLex (b.x, toLex (b.y, b.z))) : a = b := by
  obtain ⟨ax, ay, az⟩ := a
  obtain ⟨bx, b_y, bz⟩ := b
  have h1 := congrArg (fun t => (ofLex t).1) h
  have h2 := congrArg (fun t => (ofLex (ofLex t).2).1) h
  have h3 := congrArg (fun t => (ofLex (ofLex t).2).2) h
  simp only [ofLex_toLex] at h1 h2 h3
  rw [h1, h2, h3]

/-- C17: over points with totally ordered coordinates `compareVecByElems` is
the strict lexicographic order on `(x, y, z)`: it is irreflexive, transitive,
and of `compare a b`, `compare b a`, `a = b` exactly one holds. -/
theorem compareVecByElems_strict_lexicographic {α : Type} [LinearOrder α]
    (a b c : Vec3 α) :
    (compareVecByElems a b = true ↔
        a.x < b.x ∨ (a.x = b.x ∧ (a.y < b.y ∨ (a.y = b.y ∧ a.z < b.z)))) ∧
      compareVecByElems a a = false ∧
      (compareVecByElems a b = true → compareVecByElems b c = true →
        compareVecByElems a c = true) ∧
      ((compareVecByElems a b = true ∧ compareVecByElems b a = false ∧ a ≠ b) ∨
        (compareVecByElems a b = false ∧ compareVecByElems b a = true ∧ a ≠ b) ∨
        (compareVecByElems a b = false ∧ compareVecByElems b a = false ∧ a = b)) := by
  have key : ∀ p q : Vec3 α, compareVecByElems p q = true ↔
      toLex (p.x, toLex (p.y, p.z)) < toLex (q.x, toLex (q.y, q.z)) :=
    fun p q => (compareVecByElems_iff_lexLT p q).trans (lexLT_iff_toLex p q)
  have keyf : ∀ p q : Vec3 α, compareVecByElems p q = false ↔
      ¬ toLex (p.x, toLex (p.y, p.z)) < toLex (q.x, toLex (q.y, q.z)) := by
    intro p q
    rw [← key]
    simp
  refine ⟨compareVecByElems_iff_lexLT a b, ?_, ?_, ?_⟩
  · rw [keyf]
    exact lt_irrefl _
  · intro hab hbc
    rw [key] at *
    exact lt_trans hab hbc
  · rcases lt_trichotomy (toLex (a.x, toLex (a.y, a.z))) (toLex (b.x, toLex (b.y, b.z)))
      with h | h | h
    · refine Or.inl ⟨(key a b).mpr h, (keyf b a).mpr (lt_asymm h), ?_⟩
      intro hab
      rw [hab] at h
      exact lt_irrefl _ h
    · have hab := eq_of_toLex_eq a b h
      refine Or.inr (Or.inr ⟨(keyf a b).mpr ?_, (keyf b a).mpr ?_, hab⟩)
      · rw [h]; exact lt_irrefl _
      · rw [h]; exact lt_irrefl _
    · refine Or.inr (Or.inl ⟨(keyf a b).mpr (lt_asymm h), (key b a).mpr h, ?_⟩)
      intro hab
      rw [hab] at h
      exact lt_irrefl _ h

theorem compareVecByElems_strict_lexicographic_witness :
    (compareVecByElems (⟨0, 1, 5⟩ : Vec3 Int) ⟨0, 2, 0⟩ = true →
      compareVecByElems (⟨0, 2, 0⟩ : Vec3 Int) ⟨1, 0, 0⟩ = true →
      compareVecByElems (⟨0, 1, 5⟩ : Vec3 Int) ⟨1, 0, 0⟩ = true) ∧
      compareVecByElems (⟨0, 1, 5⟩ : Vec3 Int) ⟨0, 2, 0⟩ = true ∧
      compareVecByElems (⟨0, 2, 0⟩ : Vec3 Int) ⟨1, 0, 0⟩ = true :=
  ⟨(compareVecByElems_strict_lexicographic (⟨0, 1, 5⟩ : Vec3 Int) ⟨0, 2, 0⟩ ⟨1, 0, 0⟩).2.2.1,
    by decide, by decide⟩

/-! ## Theorems on `reorder_points_adjacent` -/

theorem reorder_points_adjacent_duplicated (mejor0 : Vec3 Int) :
    reorder_points_adjacent mejor0 [⟨0, 0, 0⟩, ⟨0, 0, 0⟩, ⟨1, 0, 0⟩, ⟨1, 0, 0⟩] =
      [⟨0, 0, 0⟩, ⟨1, 0, 0⟩, mejor0, mejor0] := by
  simp only [reorder_points_adjacent]
  rw [reorderLoop]
  simp [nearestLoop, belowMinimum, distanceSq]
  rw [reorderLoop]
  simp [nearestLoop, belowMinimum, distanceSq]
  rw [reorderLoop]
  simp [nearestLoop, belowMinimum, distanceSq]
  rw [reorderLoop]
  simp

/-- C15 (the code departs from the claim): on the non-empty sequence
`[(0,0,0),(0,0,0),(1,0,0),(1,0,0)]`, which has duplicates,
`reorder_points_adjacent` returns `[(0,0,0),(1,0,0),m,m]`, where `m` is the
value of the never assigned `mejor_punto`; whatever `m` is, this is not a
permutation of the input. -/
theorem reorder_points_adjacent_duplicates_not_perm :
    (∀ mejor0 : Vec3 Int,
      reorder_points_adjacent mejor0 [⟨0, 0, 0⟩, ⟨0, 0, 0⟩, ⟨1, 0, 0⟩, ⟨1, 0, 0⟩] =
        [⟨0, 0, 0⟩, ⟨1, 0, 0⟩, mejor0, mejor0]) ∧
      ¬ ∃ mejor0 : Vec3 Int,
        (reorder_points_adjacent mejor0
          [⟨0, 0, 0⟩, ⟨0, 0, 0⟩, ⟨1, 0, 0⟩, ⟨1, 0, 0⟩]).Perm
          [⟨0, 0, 0⟩, ⟨0, 0, 0⟩, ⟨1, 0, 0⟩, ⟨1, 0, 0⟩] := by
  refine ⟨reorder_points_adjacent_duplicated, ?_⟩
  rintro ⟨mejor0, hperm⟩
  rw [reorder_points_adjacent_duplicated] at hperm
  have hc := hperm.count_eq (⟨0, 0, 0⟩ : Vec3 Int)
  by_cases hm : mejor0 = ⟨0, 0, 0⟩
  · subst hm
    revert hc
    decide
  · have hm' : (mejor0 == (⟨0, 0, 0⟩ : Vec3 Int)) = false := by
      simpa using hm
    simp [List.count_cons, hm'] at hc

theorem consecutiveSegments_length :
    ∀ l : List (Vec3 Int), (consecutiveSegments l).length = l.length - 1 := by
  intro l
  induction l with
  | nil => rfl
  | cons a t ih =>
    cases t with
    | nil => rfl
    | cons b t =>
      simp only [consecutiveSegments, List.length_cons, ih]
      omega

theorem consecutiveSegments_getElem? :
    ∀ (l : List (Vec3 Int)) (k : Nat) (o p : Vec3 Int), l[k]? = some o →
      l[k + 1]? = some p → (consecutiveSegments l)[k]? = some ⟨p.x, p.y, p.z, o⟩ := by
  intro l
  induction l with
  | nil => intro k o p h; simp at h
  | cons a t ih =>
    intro k o p ho hp
    cases t with
    | nil => simp at hp
    | cons b t =>
      cases k with
      | zero =>
        simp only [List.getElem?_cons_zero, List.getElem?_cons_succ, Option.some.injEq,
          zero_add] at ho hp
        simp only [consecutiveSegments, List.getElem?_cons_zero, ho, hp]
      | succ k =>
        simp only [List.getElem?_cons_succ] at ho hp
        simp only [consecutiveSegments, List.getElem?_cons_succ]
        exact ih k o p ho (by simpa using hp)

theorem drawVectorsLoop_eq (points : List (Vec3 Int)) (numberOfPoints : Nat)
    (hnum : numberOfPoints = points.length) :
    ∀ (n j : Nat) (s : Scene), numberOfPoints - (j + 1) = n → j + 1 ≤ numberOfPoints →
      drawVectorsLoop points numberOfPoints (j + 1) s =
        some ⟨s.nVectors + (numberOfPoints - (j + 1)),
          s.vectorMeshList ++ consecutiveSegments (points.drop j)⟩ := by
  subst hnum
  intro n
  induction n with
  | zero =>
    intro j s hn hj
    have hjl : j + 1 = points.length := by omega
    rw [drawVectorsLoop, if_neg (by omega)]
    have hd : consecutiveSegments (points.drop j) = [] := by
      have h1 : (consecutiveSegments (points.drop j)).length = 0 := by
        rw [consecutiveSegments_length, List.length_drop]
        omega
      exact List.length_eq_zero.mp h1
    rw [hd, List.append_nil, hjl, Nat.sub_self, Nat.add_zero]
  | succ n ih =>
    intro j s hn hj
    have hj1 : j + 1 < points.length := by omega
    have hj0 : j < points.length := by omega
    rw [drawVectorsLoop, if_pos hj1]
    simp only [Nat.add_sub_cancel, List.getElem?_eq_getElem hj1, List.getElem?_eq_getElem hj0]
    rw [ih (j + 1) _ (by omega) (by omega)]
    simp only [Option.some.injEq, Scene.mk.injEq]
    constructor
    · omega
    · rw [List.drop_eq_getElem_cons hj0, List.drop_eq_getElem_cons hj1]
      simp [consecutiveSegments]

/-- C20: for a list `P` of `n ≥ 1` points `drawVectors` appends exactly
`n - 1` segments to the scene, the `i`-th (`1 ≤ i ≤ n - 1`) with origin
`P[i-1]` and tip `P[i]`, and adds `n - 1` to `nVectors`. -/
theorem drawVectors_appends_polyline (P : List (Vec3 Int)) (s : Scene)
    (hP : 1 ≤ P.length) :
    ∃ segs, drawVectors P s =
        some ⟨s.nVectors + (P.length - 1), s.vectorMeshList ++ segs⟩ ∧
      segs.length = P.length - 1 ∧
      ∀ (i : Nat) (p o : Vec3 Int), 1 ≤ i → P[i]? = some p → P[i - 1]? = some o →
        segs[i - 1]? = some ⟨p.x, p.y, p.z, o⟩ := by
  refine ⟨consecutiveSegments P, ?_, consecutiveSegments_length P, ?_⟩
  · unfold drawVectors
    simp only
    rw [drawVectorsLoop_eq P P.length rfl _ 0 s rfl hP]
    rfl
  · intro i p o hi hp ho
    obtain ⟨k, rfl⟩ : ∃ k, i = k + 1 := ⟨i - 1, by omega⟩
    simp only [Nat.add_sub_cancel] at ho ⊢
    exact consecutiveSegments_getElem? P k o p ho hp

theorem drawVectors_appends_polyline_witness :
    (1 ≤ ([⟨0, 0, 0⟩, ⟨1, 0, 0⟩] : List (Vec3 Int)).length) ∧
      ∃ segs, drawVectors [⟨0, 0, 0⟩, ⟨1, 0, 0⟩] ⟨0, []⟩ =
          some ⟨0 + (([⟨0, 0, 0⟩, ⟨1, 0, 0⟩] : List (Vec3 Int)).length - 1), [] ++ segs⟩ ∧
        segs.length = ([⟨0, 0, 0⟩, ⟨1, 0, 0⟩] : List (Vec3 Int)).length - 1 ∧
        ∀ (i : Nat) (p o : Vec3 Int), 1 ≤ i →
          ([⟨0, 0, 0⟩, ⟨1, 0, 0⟩] : List (Vec3 Int))[i]? = some p →
          ([⟨0, 0, 0⟩, ⟨1, 0, 0⟩] : List (Vec3 Int))[i - 1]? = some o →
          segs[i - 1]? = some ⟨p.x, p.y, p.z, o⟩ :=
  ⟨by decide, drawVectors_appends_polyline [⟨0, 0, 0⟩, ⟨1, 0, 0⟩] ⟨0, []⟩ (by decide)⟩

/-- C18: for a non-empty list `P` of `n` points `drawVectorsBresenh`, called
on the initial scene (`nVectors = 0`, no segment), appends exactly `n`
segments: for each `i` in `1..n-1` the segment with origin `P[i-1]` and tip
`P[i]`, then one closing segment with origin the last point `P[n-1]` and tip
the first point `P[0]`. -/
theorem drawVectorsBresenh_closes_ring (P : List (Vec3 Int)) (hne : P ≠ []) :
    ∃ segs first last, P[0]? = some first ∧ P[P.length - 1]? = some last ∧
      drawVectorsBresenh P ⟨0, []⟩ =
        some ⟨P.length, segs ++ [⟨first.x, first.y, first.z, last⟩]⟩ ∧
      segs.length = P.length - 1 ∧
      ∀ (i : Nat) (p o : Vec3 Int), 1 ≤ i → P[i]? = some p → P[i - 1]? = some o →
        segs[i - 1]? = some ⟨p.x, p.y, p.z, o⟩ := by
  have hlen : 1 ≤ P.length := by
    cases P with
    | nil => exact absurd rfl hne
    | cons a t => simp
  have h0 : 0 < P.length := by omega
  have hl : P.length - 1 < P.length := by omega
  refine ⟨consecutiveSegments P, P[0], P[P.length - 1], List.getElem?_eq_getElem h0,
    List.getElem?_eq_getElem hl, ?_, consecutiveSegments_length P, ?_⟩
  · unfold drawVectorsBresenh
    simp only
    rw [drawVectorsLoop_eq P P.length rfl _ 0 ⟨0, []⟩ rfl hlen]
    simp only [Nat.zero_add, List.nil_append, List.drop_zero, List.getElem?_eq_getElem h0,
      List.getElem?_eq_getElem hl]
    simp only [Option.some.injEq, Scene.mk.injEq, and_true]
    omega
  · intro i p o hi hp ho
    obtain ⟨k, rfl⟩ : ∃ k, i = k + 1 := ⟨i - 1, by omega⟩
    simp only [Nat.add_sub_cancel] at ho ⊢
    exact consecutiveSegments_getElem? P k o p ho hp

theorem drawVectorsBresenh_closes_ring_witness :
    ([⟨0, 0, 0⟩, ⟨1, 0, 0⟩] : List (Vec3 Int)) ≠ [] ∧
      ∃ segs first last,
        ([⟨0, 0, 0⟩, ⟨1, 0, 0⟩] : List (Vec3 Int))[0]? = some first ∧
        ([⟨0, 0, 0⟩, ⟨1, 0, 0⟩] : List (Vec3 Int))[
          ([⟨0, 0, 0⟩, ⟨1, 0, 0⟩] : List (Vec3 Int)).length - 1]? = some last ∧
        drawVectorsBresenh [⟨0, 0, 0⟩, ⟨1, 0, 0⟩] ⟨0, []⟩ =
          some ⟨([⟨0, 0, 0⟩, ⟨1, 0, 0⟩] : List (Vec3 Int)).length,
            segs ++ [⟨first.x, first.y, first.z, last⟩]⟩ ∧
        segs.length = ([⟨0, 0, 0⟩, ⟨1, 0, 0⟩] : List (Vec3 Int)).length - 1 ∧
        ∀ (i : Nat) (p o : Vec3 Int), 1 ≤ i →
          ([⟨0, 0, 0⟩, ⟨1, 0, 0⟩] : List (Vec3 Int))[i]? = some p →
          ([⟨0, 0, 0⟩, ⟨1, 0, 0⟩] : List (Vec3 Int))[i - 1]? = some o →
          segs[i - 1]? = some ⟨p.x, p.y, p.z, o⟩ :=
  ⟨by decide, drawVectorsBresenh_closes_ring [⟨0, 0, 0⟩, ⟨1, 0, 0⟩] (by decide)⟩

end Lab2CG
